import Mathlib

/-!
Shallow embedding of `split_folder/split.py` (the splitting library of this
repository) and proofs about it.

Modelling conventions:
* Python strings (file names, path fragments) are lists of characters
  (`Name := List Char`), written `"…".data` in concrete instances; this keeps
  every operation kernel-computable.
* A full path is a list of separator-free components (`Path := List Name`);
  `os.sep`-joins become component concatenation.
* The global `random` module is an explicit deterministic generator state
  (`Nat`) threaded through the computation.  A linear congruential generator
  stands in for the Mersenne Twister; no theorem below depends on the
  constants, only on determinism and on the Fisher-Yates swap structure.
* Fallible code returns `Except`, with error values carrying exactly the data
  the corresponding `ValueError` message interpolates.
-/

namespace SplitFolder

/-- A Python string: file name, class name, or path fragment. -/
abbrev Name := List Char

/-- A filesystem path, as its list of separator-free components. -/
abbrev Path := List Name

/-! ### The `random` module as a deterministic state machine -/

/-- One step of the pseudo-random generator (an LCG standing in for the
Mersenne Twister; the proofs only use determinism). -/
def next_rand (s : Nat) : Nat := (1103515245 * s + 12345) % 2 ^ 31

/-- `random.seed(seed)` (line 185): reset the generator state from the seed,
discarding whatever state was accumulated before. -/
def seed_state (seed : Nat) : Nat := (seed + 1) % 2 ^ 31

/-- Draw the next value below `n` from the generator: new state and value. -/
def rand_below (s n : Nat) : Nat × Nat := (next_rand s, next_rand s % n)

/-- Swap the elements at positions `i` and `j` of a list (both elements are
read before either position is written, as in the Python tuple assignment
`x[i], x[j] = x[j], x[i]`). -/
def swap_at (l : List α) (i j : Nat) : List α :=
  match l[i]?, l[j]? with
  | some a, some b => (l.set i b).set j a
  | _, _ => l

/-- The loop of Fisher-Yates (`random.shuffle`): for `i` from `len - 1` down
to `1`, draw `j` below `i + 1` and swap positions `i` and `j`.
`shuffle_from i s l` runs the iterations for positions `i, i - 1, …, 1`. -/
def shuffle_from : Nat → Nat → List α → Nat × List α
  | 0, s, l => (s, l)
  | i + 1, s, l =>
    shuffle_from i (rand_below s (i + 2)).1 (swap_at l (i + 1) (rand_below s (i + 2)).2)

/-- `random.shuffle(x)` (line 193): deterministic in the generator state. -/
def shuffle (s : Nat) (l : List α) : Nat × List α :=
  shuffle_from (l.length - 1) s l

/-- `files.sort()` (line 192): Python sorts strings - and tuples of strings -
lexicographically; we sort by the `LinearOrder` of `List Char` (resp. its
lexicographic lifting to tuples), via a stable insertion sort. -/
def pysort [LinearOrder α] (l : List α) : List α := l.insertionSort (· ≤ ·)

/-! ### `group_by_prefix` (source lines 144-178)

The source reads `f.name` (the basename) of each entry for all comparisons
and stores names in `results_set`, while the groups collect the entries
themselves.  The embedding is generic in the entry type `α` together with the
basename accessor `nm : α → Name`; for a flat class directory one may take
`α := Name` and `nm := id`. -/

/-- The three `ValueError`s of `group_by_prefix`, carrying the data their
messages interpolate. -/
inductive GroupErr where
  /-- line 168: more than `len_pairs - 1` ungrouped files share the candidate
  prefix (`found` of them were found). -/
  | tooMany (fname : Name) (found : Nat)
  /-- line 172: the candidate prefix was exhausted without an exact match. -/
  | noAdequate (fname : Name)
  /-- line 175: after the scan, `grouped` names were grouped out of `total`
  input files. -/
  | shortfall (grouped total : Nat)
deriving DecidableEq

/-- The comprehension `[x for x in files if x.name not in results_set and
x.name.startswith(f_sub) and f.name != x.name]` (lines 154-160). -/
def matches_at (nm : α → Name) (files : List α) (rs : Finset Name)
    (fname fsub : Name) : List α :=
  files.filter fun x =>
    decide (nm x ∉ rs) && fsub.isPrefixOf (nm x) && decide (fname ≠ nm x)

/-- The inner `for _ in range(len(f_sub))` loop (lines 153-172): shrink the
candidate prefix by one character (`f_sub = f_sub[:-1]`) until exactly
`k - 1` other ungrouped files match; fail if strictly more match, or if the
iteration budget (the initial length of `f.name`) runs out. -/
def find_group (nm : α → Name) (files : List α) (rs : Finset Name)
    (fname : Name) (k : Nat) : Nat → Name → Except GroupErr (List α)
  | 0, _ => .error (.noAdequate fname)
  | fuel + 1, fsub =>
    let ms := matches_at nm files rs fname fsub
    if ms.length = k - 1 then .ok ms
    else if ms.length < k - 1 then find_group nm files rs fname k fuel fsub.dropLast
    else .error (.tooMany fname ms.length)

/-- The outer `for f in files` loop (lines 149-172).  `rs` is `results_set`;
a file whose name is already grouped is skipped, otherwise its group
`(f, *matches)` is appended and all the names are added to `rs`. -/
def group_loop (nm : α → Name) (files : List α) (k : Nat) :
    List α → List (List α) → Finset Name →
    Except GroupErr (List (List α) × Finset Name)
  | [], results, rs => .ok (results, rs)
  | f :: rest, results, rs =>
    if nm f ∈ rs then group_loop nm files k rest results rs
    else
      match find_group nm files rs (nm f) k (nm f).length (nm f) with
      | .error e => .error e
      | .ok ms =>
        group_loop nm files k rest (results ++ [f :: ms])
          (rs ∪ (nm f :: ms.map nm).toFinset)

/-- `group_by_prefix(files, len_pairs)` (lines 144-178): run the scan and then
check that the number of grouped names equals the number of input files. -/
def group_by_pref (nm : α → Name) (files : List α) (k : Nat) :
    Except GroupErr (List (List α)) :=
  match group_loop nm files k files [] ∅ with
  | .error e => .error e
  | .ok (results, rs) =>
    if rs.card ≠ files.length then .error (.shortfall rs.card files.length)
    else .ok results

/-- The shape of a `find_group` error: the no-adequate-match error, or the
too-many-matches error carrying a match count strictly above `k - 1`; the
shortfall error is never raised there. -/
def find_group_err_ok (k : Nat) : GroupErr → Prop
  | .tooMany _ m => k - 1 < m
  | .noAdequate _ => True
  | .shortfall _ _ => False

/-- The shape of a `group_by_prefix` error: as for `find_group`, except that
the final check can raise the shortfall error, always with a grouped-name
count that differs from the input count. -/
def group_err_ok (k : Nat) : GroupErr → Prop
  | .tooMany _ m => k - 1 < m
  | .noAdequate _ => True
  | .shortfall a b => a ≠ b

/-! ### `setup_files` (source lines 181-194) -/

/-- `setup_files` with `group_prefix is None`: `random.seed(seed)` (which
discards the incoming generator state `_st`), then sort the enumerated list
canonically and shuffle it.  Returns the generator state after the shuffle
and the shuffled list. -/
def setup_files_plain (_st seed : Nat) (files : List Name) : Nat × List Name :=
  shuffle (seed_state seed) (pysort files)

/-- `setup_files` with grouping active: `group_by_prefix` runs on the
enumeration-ordered list *before* the canonical sort (lines 189-192); the
resulting group tuples are then sorted and shuffled as atomic units. -/
def setup_files_grouped (_st seed : Nat) (files : List Name) (k : Nat) :
    Except GroupErr (Nat × List (List Name)) :=
  match group_by_pref id files k with
  | .error e => .error e
  | .ok gs => .ok (shuffle (seed_state seed) (pysort gs))

/-! ### The partitioner (source lines 197-247) -/

/-- `split_files(files, split_train_idx, split_val_idx, use_test)`
(lines 233-247): slice the shuffled sequence, with `val` extending to the end
when there is no test subset, and the test subset appended only when
`use_test`. -/
def split_files (files : List α) (split_train_idx split_val_idx : Nat)
    (use_test : Bool) : List (List α × String) :=
  let files_train := files.take split_train_idx
  let files_val :=
    if use_test then (files.drop split_train_idx).take (split_val_idx - split_train_idx)
    else files.drop split_train_idx
  let li := [(files_train, "train"), (files_val, "val")]
  if use_test then li ++ [(files.drop split_val_idx, "test")] else li

/-- `int(ratio[i] * len(files))` (lines 203-204).  Ratios are modelled as
rationals; `int()` truncation equals `floor` for the non-negative ratios the
`assert`s admit. -/
def ratio_idx (r : ℚ) (n : Nat) : Nat := (⌊r * n⌋).toNat

/-- The slicing of `split_class_dir_ratio` (lines 197-206), applied to the
already shuffled sequence: `split_train_idx = int(ratio[0]*N)`,
`split_val_idx = split_train_idx + int(ratio[1]*N)`, and a test subset iff
the ratio tuple has three elements. -/
def ratio_plan (files : List α) (r : List ℚ) : List (List α × String) :=
  let a := ratio_idx (r.headD 0) files.length
  let b := a + ratio_idx ((r.drop 1).headD 0) files.length
  split_files files a b (decide (r.length = 3))

/-- The `ValueError` of `split_class_dir_fixed` (lines 220-222), carrying the
class name, the available sample count and the required count its message
interpolates. -/
structure FixedErr where
  class_name : Name
  available : Nat
  required : Nat
deriving DecidableEq

/-- `split_class_dir_fixed` (lines 214-230) after `setup_files`: raise unless
`len(files) > sum(fixed)`, otherwise slice with
`split_train_idx = len(files) - sum(fixed)`,
`split_val_idx = split_train_idx + fixed[0]`, and a test subset iff two fixed
counts were given. -/
def split_class_dir_fixed (files : List α) (class_name : Name)
    (fixed : List Nat) : Except FixedErr (List (List α × String)) :=
  if files.length ≤ fixed.sum then
    .error ⟨class_name, files.length, fixed.sum⟩
  else
    let a := files.length - fixed.sum
    let b := a + fixed.headD 0
    .ok (split_files files a b (decide (fixed.length = 2)))

/-! ### The `fixed` entry point (source lines 88-141) -/

/-- The `fixed` argument of the `fixed` entry point: either a bare integer or
a 1- or 2-tuple of integers. -/
inductive FixedParam where
  | int (i : Nat)
  | tuple (l : List Nat)
deriving DecidableEq

/-- Lines 97-98: `if isinstance(fixed, int): fixed = [fixed]` - a bare
integer is coerced to the one-element list before the length check. -/
def normalize_fixed : FixedParam → List Nat
  | .int i => [i]
  | .tuple l => l

/-- The per-class loop of the `fixed` entry point (lines 105-117): process
the classes in order, threading the generator state, collecting each class's
plan and its pre-split size (`lens`); the first `ValueError` aborts the run. -/
def fixed_classes_loop (fx : List Nat) (seed : Nat) :
    Nat → List (Name × List Name) →
    Except FixedErr (Nat × List (List (List Name × String)) × List Nat)
  | st, [] => .ok (st, [], [])
  | st, c :: rest =>
    let p := setup_files_plain st seed c.2
    match split_class_dir_fixed p.2 c.1 fx with
    | .error e => .error e
    | .ok plan =>
      match fixed_classes_loop fx seed p.1 rest with
      | .error e => .error e
      | .ok (st', plans, lens) => .ok (st', plan :: plans, p.2.length :: lens)

/-- The `fixed` entry point up to (and excluding) oversampling
(lines 88-120): coerce the `fixed` argument, check `len(fixed) in (1, 2)`
(`none` models a failed `assert`), then split every class. -/
def fixed_entry (p : FixedParam) (st seed : Nat)
    (classes : List (Name × List Name)) :
    Option (Except FixedErr (Nat × List (List (List Name × String)) × List Nat)) :=
  let fx := normalize_fixed p
  if fx.length = 1 ∨ fx.length = 2 then
    some (fixed_classes_loop fx seed st classes)
  else none

/-- The per-class loop of the `ratio` entry point (lines 76-85), restricted
to the in-memory plans (no grouping): process the classes in order, threading
the generator state, and collect each class's split plan. -/
def ratio_run (seed : Nat) (r : List ℚ) :
    Nat → List (List Name) → Nat × List (List (List Name × String))
  | st, [] => (st, [])
  | st, c :: rest =>
    let p := setup_files_plain st seed c
    let plan := ratio_plan p.2 r
    let q := ratio_run seed r p.1 rest
    (q.1, plan :: q.2)

/-! ### The oversampler (source lines 122-141) -/

/-- A file of a materialized train directory, as `pathlib` presents it to the
oversampler: the directory it lives in, its stem and its suffix. -/
structure TrainFile where
  dir : Path
  stem : Name
  suffix : Name
deriving DecidableEq

/-- The synthesized duplicate of line 139-140:
`new_name = f_orig.stem + "_" + str(i) + f_orig.suffix`,
`f_dest = f_orig.with_name(new_name)` - same directory, new name. -/
def dup_file (f : TrainFile) (i : Nat) : TrainFile :=
  ⟨f.dir, f.stem ++ ('_' :: (toString i).data), f.suffix⟩

/-- The inner loop of the oversampler (lines 137-141) for one class:
`for i in range(max_len - length)`, pick `random.choice(train_files)` from
the train listing made once before the loop, and copy it to its synthesized
name.  Returns the generator state and the list of performed
`(source, duplicate)` copies, in order of the duplication index `i`.
`none` models the `IndexError` of `random.choice` on an empty listing. -/
def ov_go (pool : List TrainFile) : Nat → Nat → Nat →
    Option (Nat × List (TrainFile × TrainFile))
  | st, _, 0 => some (st, [])
  | st, i, need + 1 =>
    let p := rand_below st pool.length
    match pool[p.2]? with
    | none => none
    | some f =>
      match ov_go pool p.1 (i + 1) need with
      | none => none
      | some (st', rest) => some (st', (f, dup_file f i) :: rest)

/-- `max_len = max(lens)` (line 125), as the fold Python's `max` computes on
a non-empty list (`max` raises on an empty one, which the fold does not
model). -/
def max_len (lens : List Nat) : Nat := lens.foldr max 0

/-- The oversampling pass (lines 122-141): after all classes are split,
`max_len` is the largest pre-split class size; every class receives
`max_len - length` duplicates drawn from its train listing, the generator
state threading from one class to the next (the process-wide `random` source
is not reseeded here). -/
def fixed_oversample (st : Nat) :
    List (Nat × List TrainFile) → Nat →
    Option (Nat × List (List (TrainFile × TrainFile)))
  | [], _ => some (st, [])
  | c :: rest, max_len =>
    match ov_go c.2 st 0 (max_len - c.1) with
    | none => none
    | some (st', dups) =>
      match fixed_oversample st' rest max_len with
      | none => none
      | some (st'', out) => some (st'', dups :: out)

/-! ### The materializer (source lines 270-351)

An element of the list handed to `copy_files`/`move_files` is either a single
path or a group tuple; the source distinguishes them at run time with
`type(f) == tuple`. -/

/-- An entry of a subset batch: a single file or a group tuple. -/
inductive Entry (α : Type) where
  | single (f : α)
  | group (g : List α)
deriving DecidableEq

/-- A performed `shutil.copy2`/`shutil.move` transfer. -/
structure Transfer where
  src : Path
  dest : Path
deriving DecidableEq

/-- The basename of a path (`os.path.split(p)[1]` / `pathlib`'s `name`). -/
def basename (f : Path) : Name := f.getLastD []

/-- The `# check list` loop of `copy_files`/`move_files`
(lines 300-304 / 336-340):

`for f in files:`
`    if type(f) == tuple:`
`        for x in f: transfer(x, full_path)`
`        files.remove(f)`

Python's `for` iterates by an internal index over the very list that
`files.remove` is mutating: removing the current element shifts the rest one
slot left, and the iterator then skips the element that followed.
`tuple_scan_go fuel fs i done` runs the loop from iterator position `i`,
returning the mutated list and the group members transferred so far; the
fuel (initially the list length, which the iterator position reaches in at
most that many steps because the list only ever shrinks) keeps the
recursion structural. -/
def tuple_scan_go [DecidableEq α] :
    Nat → List (Entry α) → Nat → List α → List (Entry α) × List α
  | 0, fs, _, done => (fs, done)
  | fuel + 1, fs, i, done =>
    if h : i < fs.length then
      match fs[i] with
      | .single _ => tuple_scan_go fuel fs (i + 1) done
      | .group g => tuple_scan_go fuel (fs.erase fs[i]) (i + 1) (done ++ g)
    else (fs, done)

/-- The whole check-list loop of one batch, from iterator position 0. -/
def tuple_scan [DecidableEq α] (fs : List (Entry α)) : List (Entry α) × List α :=
  tuple_scan_go fs.length fs 0 []

/-- The relative-path computation of `_copy` (lines 277-278):
`f.split(os.sep + class_name + os.sep, 1)[-1]`.  On separator-free component
lists, the first occurrence of the pattern is the first *interior* component
equal to `class_name` that is followed by at least one more component; the
result is the component list after it.  `rel_after_go` scans the components
after the head (the pattern needs a separator, hence a component, before
`class_name`). -/
def rel_after_go (class_name : Name) : Path → Option Path
  | [] => none
  | x :: xs => if x = class_name ∧ xs ≠ [] then some xs else rel_after_go class_name xs

/-- First occurrence of `os.sep + class_name + os.sep` in `f`, as the
components following it, if any. -/
def rel_after (class_name : Name) : Path → Option Path
  | [] => none
  | _ :: rest => rel_after_go class_name rest

/-- The destination `_copy` transfers a single file to (lines 277-287): the
relative part after `os.sep + class_name + os.sep` is recreated beneath
`full_path`; when the pattern does not occur, `file_relative_path` is the
whole of `f` and is joined as-is.  (The `else` branch of `_copy` would need
an empty relative path, which no file path produces.) -/
def copy_dest (class_name : Name) (full_path : Path) (f : Path) : Path :=
  match rel_after class_name f with
  | some rel => full_path ++ rel
  | none => full_path ++ f

/-- The destination `_move` transfers a single file to (lines 322-323):
`shutil.move(f, full_path)` with `full_path` an existing directory moves `f`
*into* it, at `full_path/basename(f)`; no relative sub-path is recreated. -/
def move_dest (full_path : Path) (f : Path) : Path :=
  full_path ++ [basename f]

/-- The worker phase of one `copy_files` batch (lines 306-316): `thread_map`
with `max_workers=1` processes the jobs sequentially in order.  A group tuple
that survived the check-list loop reaches `_copy`, whose first step
`f.split(...)` is a `str` method call: the worker raises `AttributeError`.
Returns the transfers performed before the first failure and whether the
batch completed. -/
def run_copy_workers (class_name : Name) (full_path : Path) :
    List (Entry Path) → List Transfer × Bool
  | [] => ([], true)
  | .group _ :: _ => ([], false)
  | .single f :: rest =>
    let q := run_copy_workers class_name full_path rest
    (⟨f, copy_dest class_name full_path f⟩ :: q.1, q.2)

/-- One `(files, folder_type)` batch of `copy_files` (lines 292-316): the
check-list loop transfers the members of every group it reaches into
`full_path` directly (`shutil.copy2(x, full_path)` places `x` at
`full_path/basename(x)`), then the workers process the mutated list. -/
def copy_batch (class_name : Name) (full_path : Path)
    (entries : List (Entry Path)) : List Transfer × Bool :=
  let s := tuple_scan entries
  let w := run_copy_workers class_name full_path s.1
  (s.2.map (fun x => ⟨x, full_path ++ [basename x]⟩) ++ w.1, w.2)

/-- The worker phase of one `move_files` batch (lines 342-351): a surviving
group tuple reaches `shutil.move`, which raises `TypeError` on a tuple. -/
def run_move_workers (full_path : Path) :
    List (Entry Path) → List Transfer × Bool
  | [] => ([], true)
  | .group _ :: _ => ([], false)
  | .single f :: rest =>
    let q := run_move_workers full_path rest
    (⟨f, move_dest full_path f⟩ :: q.1, q.2)

/-- One `(files, folder_type)` batch of `move_files` (lines 328-351). -/
def move_batch (full_path : Path) (entries : List (Entry Path)) :
    List Transfer × Bool :=
  let s := tuple_scan entries
  let w := run_move_workers full_path s.1
  (s.2.map (fun x => ⟨x, full_path ++ [basename x]⟩) ++ w.1, w.2)

/-- All batches of `copy_files` for one class (lines 290-316): destination
directory `output/folder_type/class_name` per batch; batches run in order and
an exception in one aborts the rest of the run. -/
def copy_files (class_name : Name) (output : Name) :
    List (List (Entry Path) × String) → List Transfer × Bool
  | [] => ([], true)
  | (entries, folder_type) :: rest =>
    let b := copy_batch class_name [output, folder_type.data, class_name] entries
    if b.2 then
      let q := copy_files class_name output rest
      (b.1 ++ q.1, q.2)
    else b

/-- A minimal filesystem (the multiset of existing file paths) for stating
what a transfer does: `copy2` creates the destination and keeps the source,
`move` creates the destination and removes the source. -/
def apply_copy (fs : List Path) (t : Transfer) : List Path := t.dest :: fs

/-- Effect of `shutil.move` on the file listing. -/
def apply_move (fs : List Path) (t : Transfer) : List Path :=
  t.dest :: fs.erase t.src

/-! ### The per-class ratio pipeline with grouping (lines 197-211)

`split_class_dir_ratio` composes `setup_files`, the slicing and the
materializer.  With grouping active the plan's subsets are lists of group
tuples; single-component paths are used for a flat class directory, the
entry handed to the materializer being `output-independent` group tuples. -/

/-- Split one class in ratio copy mode with grouping active, over a flat
class directory (each file's path is `[class_name, name]`): setup (grouping,
sort, shuffle), slice, wrap each group as a tuple entry with full paths, and
run `copy_files`. -/
def ratio_class_grouped_copy (st seed : Nat) (class_name : Name)
    (names : List Name) (k : Nat) (r : List ℚ) (output : Name) :
    Except GroupErr (List Transfer × Bool) :=
  match setup_files_grouped st seed names k with
  | .error e => .error e
  | .ok p =>
    let plan := ratio_plan p.2 r
    let entries := plan.map fun b =>
      (b.1.map (fun g => Entry.group (g.map (fun n => [class_name, n]))), b.2)
    .ok (copy_files class_name output entries)

/-- Split one class in ratio copy mode without grouping, over a flat class
directory (each file's path is `[class_name, name]`): setup (sort, shuffle),
slice, wrap each file as a single entry with its full path, and run
`copy_files`. -/
def ratio_class_plain_copy (st seed : Nat) (class_name : Name)
    (names : List Name) (r : List ℚ) (output : Name) : List Transfer × Bool :=
  let p := setup_files_plain st seed names
  let plan := ratio_plan p.2 r
  let entries := plan.map fun b =>
    (b.1.map (fun n => Entry.single ([class_name, n] : Path)), b.2)
  copy_files class_name output entries

/-- Decidable equality of `Except` results, for evaluating concrete runs. -/
instance instDecidableEqExcept {ε α : Type} [DecidableEq ε] [DecidableEq α] :
    DecidableEq (Except ε α) := fun x y =>
  match x, y with
  | .error a, .error b =>
    if h : a = b then isTrue (congrArg Except.error h)
    else isFalse fun hc => h (Except.error.inj hc)
  | .error _, .ok _ => isFalse fun hc => Except.noConfusion hc
  | .ok _, .error _ => isFalse fun hc => Except.noConfusion hc
  | .ok a, .ok b =>
    if h : a = b then isTrue (congrArg Except.ok h)
    else isFalse fun hc => h (Except.ok.inj hc)

/-- No plan of a `fixed`-mode run contains a test subset (used to state what
a one-element `fixed` parameter produces). -/
def no_test_plans
    (res : Option (Except FixedErr (Nat × List (List (List Name × String)) × List Nat))) :
    Prop :=
  match res with
  | some (.ok (_, plans, _)) => ∀ plan ∈ plans, ∀ pr ∈ plan, pr.2 ≠ "test"
  | _ => True

/-! ## Helper lemmas -/

theorem ratio_idx_nonneg_le (r : ℚ) (n : Nat) (h0 : 0 ≤ r) (h1 : r ≤ 1) :
    ratio_idx r n ≤ n := by
  unfold ratio_idx
  have hf : ⌊r * n⌋ ≤ ⌊((n : ℚ))⌋ := by
    apply Int.floor_le_floor
    nlinarith [Nat.cast_nonneg (α := ℚ) n]
  rw [Int.floor_natCast] at hf
  omega

theorem ratio_idx_add_le (r0 r1 : ℚ) (n : Nat) (h0 : 0 ≤ r0) (h1 : 0 ≤ r1)
    (hs : r0 + r1 ≤ 1) : ratio_idx r0 n + ratio_idx r1 n ≤ n := by
  unfold ratio_idx
  have ha : (0 : ℤ) ≤ ⌊r0 * n⌋ := Int.floor_nonneg.2 (by positivity)
  have hb : (0 : ℤ) ≤ ⌊r1 * n⌋ := Int.floor_nonneg.2 (by positivity)
  have hf : ⌊r0 * n⌋ + ⌊r1 * n⌋ ≤ ⌊r0 * n + r1 * n⌋ := by
    apply Int.le_floor.2
    push_cast
    have := Int.floor_le (r0 * n)
    have := Int.floor_le (r1 * n)
    linarith
  have h2 : ⌊r0 * n + r1 * n⌋ ≤ ⌊((n : ℚ))⌋ := by
    apply Int.floor_le_floor
    nlinarith [Nat.cast_nonneg (α := ℚ) n]
  rw [Int.floor_natCast] at h2
  omega

theorem split_files_with_test (files : List α) (a b : Nat) :
    split_files files a b true =
      [(files.take a, "train"), ((files.drop a).take (b - a), "val"),
       (files.drop b, "test")] := by
  simp [split_files]

theorem split_files_no_test (files : List α) (a b : Nat) :
    split_files files a b false =
      [(files.take a, "train"), (files.drop a, "val")] := by
  simp [split_files]

theorem take_drop_take_append (files : List α) (a i : Nat) :
    files.take a ++ (files.drop a).take i ++ files.drop (a + i) = files := by
  rw [List.append_assoc]
  have h : files.drop (a + i) = (files.drop a).drop i := by
    rw [List.drop_drop]
  rw [h, List.take_append_drop, List.take_append_drop]

/-! ## C1: ratio-mode slicing -/

/-- C1.  For every class with `N` enumerated entries and every ratio tuple of
2 or 3 non-negative fractions summing to 1, ratio mode slices the shuffled
sequence at `trainEnd = floor(ratio[0]*N)` and
`valEnd = trainEnd + floor(ratio[1]*N)`: train is `[0, trainEnd)`; with 3
ratio elements val is `[trainEnd, valEnd)` and test is `[valEnd, N)`; with 2
elements val is `[trainEnd, N)` and there is no test subset.  The subsets are
disjoint, their lengths sum to `N`, and the floor-rounding remainder lands in
the last populated subset. -/
theorem c1_ratio_mode_slicing {α : Type} :
    (∀ (files : List α) (r0 r1 r2 : ℚ), 0 ≤ r0 → 0 ≤ r1 → 0 ≤ r2 →
      r0 + r1 + r2 = 1 →
      ∃ tr va te, ratio_plan files [r0, r1, r2] =
          [(tr, "train"), (va, "val"), (te, "test")] ∧
        tr = files.take (ratio_idx r0 files.length) ∧
        va = (files.drop (ratio_idx r0 files.length)).take (ratio_idx r1 files.length) ∧
        te = files.drop (ratio_idx r0 files.length + ratio_idx r1 files.length) ∧
        tr.length = ratio_idx r0 files.length ∧
        va.length = ratio_idx r1 files.length ∧
        tr.length + va.length + te.length = files.length ∧
        tr ++ va ++ te = files ∧
        (files.Nodup → tr.Disjoint va ∧ tr.Disjoint te ∧ va.Disjoint te)) ∧
    (∀ (files : List α) (r0 r1 : ℚ), 0 ≤ r0 → 0 ≤ r1 → r0 + r1 = 1 →
      ∃ tr va, ratio_plan files [r0, r1] = [(tr, "train"), (va, "val")] ∧
        tr = files.take (ratio_idx r0 files.length) ∧
        va = files.drop (ratio_idx r0 files.length) ∧
        tr.length = ratio_idx r0 files.length ∧
        tr.length + va.length = files.length ∧
        tr ++ va = files ∧
        (files.Nodup → tr.Disjoint va)) := by
  constructor
  · intro files r0 r1 r2 h0 h1 h2 hs
    have hab : ratio_idx r0 files.length + ratio_idx r1 files.length ≤ files.length :=
      ratio_idx_add_le r0 r1 files.length h0 h1 (by linarith)
    have ha : ratio_idx r0 files.length ≤ files.length := by omega
    have hplan : ratio_plan files [r0, r1, r2]
        = split_files files (ratio_idx r0 files.length)
            (ratio_idx r0 files.length + ratio_idx r1 files.length) true := rfl
    refine ⟨_, _, _, ?_, rfl, rfl, rfl, ?_, ?_, ?_, ?_, ?_⟩
    · rw [hplan, split_files_with_test, Nat.add_sub_cancel_left]
    · rw [List.length_take]
      exact min_eq_left ha
    · rw [List.length_take, List.length_drop]
      have : ratio_idx r1 files.length ≤ files.length - ratio_idx r0 files.length := by
        omega
      exact min_eq_left this
    · simp only [List.length_take, List.length_drop]
      rw [min_eq_left ha,
        min_eq_left (show ratio_idx r1 files.length
          ≤ files.length - ratio_idx r0 files.length by omega)]
      omega
    · exact take_drop_take_append files _ _
    · intro hnd
      have hd1 : (files.take (ratio_idx r0 files.length)).Disjoint
          (files.drop (ratio_idx r0 files.length)) :=
        List.disjoint_take_drop hnd le_rfl
      have hnd' : (files.drop (ratio_idx r0 files.length)).Nodup :=
        (List.drop_sublist _ _).nodup hnd
      have hte : files.drop (ratio_idx r0 files.length + ratio_idx r1 files.length)
          = (files.drop (ratio_idx r0 files.length)).drop (ratio_idx r1 files.length) := by
        rw [List.drop_drop]
      refine ⟨?_, ?_, ?_⟩
      · exact List.disjoint_of_subset_right (List.take_subset _ _) hd1
      · rw [hte]
        exact List.disjoint_of_subset_right (List.drop_subset _ _) hd1
      · rw [hte]
        exact List.disjoint_take_drop hnd' le_rfl
  · intro files r0 r1 h0 h1 hs
    have ha : ratio_idx r0 files.length ≤ files.length :=
      ratio_idx_nonneg_le r0 files.length h0 (by linarith)
    have hplan : ratio_plan files [r0, r1]
        = split_files files (ratio_idx r0 files.length)
            (ratio_idx r0 files.length + ratio_idx r1 files.length) false := rfl
    refine ⟨_, _, ?_, rfl, rfl, ?_, ?_, ?_, ?_⟩
    · rw [hplan, split_files_no_test]
    · rw [List.length_take]
      exact min_eq_left ha
    · simp only [List.length_take, List.length_drop]
      rw [min_eq_left ha]
      omega
    · exact List.take_append_drop _ _
    · intro hnd
      exact List.disjoint_take_drop hnd le_rfl

/-- Witness for C1 at a concrete input: 10 entries split with ratio
`(4/5, 1/10, 1/10)`. -/
theorem c1_ratio_mode_slicing_witness :
    ((0 : ℚ) ≤ 4/5 ∧ (0 : ℚ) ≤ 1/10 ∧ (4/5 + 1/10 + 1/10 : ℚ) = 1) ∧
    (∃ tr va te, ratio_plan (List.range 10) [4/5, 1/10, 1/10] =
        [(tr, "train"), (va, "val"), (te, "test")] ∧
      tr = (List.range 10).take (ratio_idx (4/5) (List.range 10).length) ∧
      va = ((List.range 10).drop (ratio_idx (4/5) (List.range 10).length)).take
          (ratio_idx (1/10) (List.range 10).length) ∧
      te = (List.range 10).drop (ratio_idx (4/5) (List.range 10).length +
          ratio_idx (1/10) (List.range 10).length) ∧
      tr.length = ratio_idx (4/5) (List.range 10).length ∧
      va.length = ratio_idx (1/10) (List.range 10).length ∧
      tr.length + va.length + te.length = (List.range 10).length ∧
      tr ++ va ++ te = List.range 10 ∧
      ((List.range 10).Nodup → tr.Disjoint va ∧ tr.Disjoint te ∧ va.Disjoint te)) :=
  ⟨⟨by norm_num, by norm_num, by norm_num⟩,
    c1_ratio_mode_slicing.1 (List.range 10) (4/5) (1/10) (1/10)
      (by norm_num) (by norm_num) (by norm_num) (by norm_num)⟩

/-! ## C3: fixed-mode check and slicing -/

/-- C3.  In fixed mode an insufficient-samples error is raised iff
`N <= sum(fixedCounts)`, its payload naming the class, the available count
and the required count; otherwise train receives `N - sum` entries, val
receives `fixedCounts[0]`, and with a second count test receives the
remainder. -/
theorem c3_fixed_mode_check {α : Type} (files : List α) (cls : Name)
    (fixed : List Nat) (hfx : fixed.length = 1 ∨ fixed.length = 2) :
    (files.length ≤ fixed.sum →
      split_class_dir_fixed files cls fixed = .error ⟨cls, files.length, fixed.sum⟩) ∧
    (∀ e, split_class_dir_fixed files cls fixed = .error e →
      files.length ≤ fixed.sum ∧ e = ⟨cls, files.length, fixed.sum⟩) ∧
    (fixed.sum < files.length →
      ∃ tr va rest, split_class_dir_fixed files cls fixed
          = .ok ((tr, "train") :: (va, "val") :: rest) ∧
        tr.length = files.length - fixed.sum ∧
        va.length = fixed.headD 0 ∧
        (fixed.length = 1 → rest = []) ∧
        (fixed.length = 2 →
          ∃ te, rest = [(te, "test")] ∧ te.length = fixed.sum - fixed.headD 0)) := by
  refine ⟨?_, ?_, ?_⟩
  · intro hle
    rw [split_class_dir_fixed, if_pos hle]
  · intro e he
    rw [split_class_dir_fixed] at he
    by_cases hle : files.length ≤ fixed.sum
    · rw [if_pos hle] at he
      exact ⟨hle, (Except.error.inj he).symm⟩
    · rw [if_neg hle] at he
      exact absurd he (by simp)
  · intro hlt
    have hne : ¬ files.length ≤ fixed.sum := by omega
    rcases hfx with h1 | h2
    · obtain ⟨f0, rfl⟩ := List.length_eq_one.1 h1
      have hres : split_class_dir_fixed files cls [f0]
          = .ok (split_files files (files.length - ([f0] : List Nat).sum)
              ((files.length - ([f0] : List Nat).sum) + f0) false) := by
        rw [split_class_dir_fixed, if_neg hne]
        rfl
      rw [split_files_no_test] at hres
      refine ⟨files.take (files.length - ([f0] : List Nat).sum),
        files.drop (files.length - ([f0] : List Nat).sum), [],
        hres, ?_, ?_, fun _ => rfl, ?_⟩
      · rw [List.length_take]
        exact min_eq_left (Nat.sub_le _ _)
      · rw [List.length_drop]
        simp only [List.sum_cons, List.sum_nil, List.headD_cons] at hlt ⊢
        omega
      · intro h2
        simp at h2
    · obtain ⟨f0, f1, rfl⟩ := List.length_eq_two.1 h2
      have hres : split_class_dir_fixed files cls [f0, f1]
          = .ok (split_files files (files.length - ([f0, f1] : List Nat).sum)
              ((files.length - ([f0, f1] : List Nat).sum) + f0) true) := by
        rw [split_class_dir_fixed, if_neg hne]
        rfl
      rw [split_files_with_test, Nat.add_sub_cancel_left] at hres
      refine ⟨files.take (files.length - ([f0, f1] : List Nat).sum),
        (files.drop (files.length - ([f0, f1] : List Nat).sum)).take f0,
        [(files.drop ((files.length - ([f0, f1] : List Nat).sum) + f0), "test")],
        hres, ?_, ?_, by simp, ?_⟩
      · rw [List.length_take]
        exact min_eq_left (Nat.sub_le _ _)
      · rw [List.length_take, List.length_drop]
        simp only [List.sum_cons, List.sum_nil, List.headD_cons] at hlt ⊢
        omega
      · intro _
        refine ⟨_, rfl, ?_⟩
        rw [List.length_drop]
        simp only [List.sum_cons, List.sum_nil, List.headD_cons] at hlt ⊢
        omega

set_option maxRecDepth 4000 in
/-- Witness for C3: the spec's two pinned examples.  With 150 entries and
`fixed = (100, 100)` the insufficient-samples error reports 150 available
versus 200 required; with 250 entries the split is 50/100/100. -/
theorem c3_fixed_mode_check_witness :
    (([100, 100] : List Nat).length = 1 ∨ ([100, 100] : List Nat).length = 2) ∧
    split_class_dir_fixed (List.range 150) "class1".data [100, 100]
      = .error ⟨"class1".data, 150, 200⟩ ∧
    (∃ tr va rest, split_class_dir_fixed (List.range 250) "class1".data [100, 100]
        = .ok ((tr, "train") :: (va, "val") :: rest) ∧
      tr.length = 50 ∧ va.length = 100 ∧
      ∃ te, rest = [(te, "test")] ∧ te.length = 100) := by
  refine ⟨by decide, ?_, ?_⟩
  · have h := (c3_fixed_mode_check (List.range 150) "class1".data [100, 100]
      (by decide)).1 (by rw [List.length_range]; decide)
    rw [List.length_range] at h
    exact h
  · obtain ⟨tr, va, rest, heq, htr, hva, -, hte⟩ :=
      (c3_fixed_mode_check (List.range 250) "class1".data [100, 100]
        (by decide)).2.2 (by rw [List.length_range]; decide)
    obtain ⟨te, hrest, htel⟩ := hte rfl
    exact ⟨tr, va, rest, heq, htr.trans (by decide), hva.trans (by decide),
      te, hrest, htel.trans (by decide)⟩

/-! ## C10: integer coercion of the `fixed` parameter -/

theorem split_files_no_test_labels {α : Type} (files : List α) (a b : Nat)
    (pr : List α × String) (h : pr ∈ split_files files a b false) :
    pr.2 = "train" ∨ pr.2 = "val" := by
  rw [split_files_no_test, List.mem_cons, List.mem_cons] at h
  rcases h with h | h | h
  · exact Or.inl (by rw [h])
  · exact Or.inr (by rw [h])
  · cases h

theorem fixed_loop_one_count_no_test (i : Nat) (seed : Nat) :
    ∀ (classes : List (Name × List Name)) (st st' : Nat)
      (plans : List (List (List Name × String))) (lens : List Nat),
      fixed_classes_loop [i] seed st classes = .ok (st', plans, lens) →
      ∀ plan ∈ plans, ∀ pr ∈ plan, pr.2 ≠ "test" := by
  intro classes
  induction classes with
  | nil =>
    intro st st' plans lens h plan hplan
    rw [fixed_classes_loop] at h
    simp only [Except.ok.injEq, Prod.mk.injEq] at h
    obtain ⟨-, hpl, -⟩ := h
    subst hpl
    cases hplan
  | cons c rest ih =>
    intro st st' plans lens h plan hplan pr hpr
    rw [fixed_classes_loop] at h
    set p := setup_files_plain st seed c.2 with hp
    rcases hsp : split_class_dir_fixed p.2 c.1 [i] with e | cplan
    · rw [hsp] at h; cases h
    · rw [hsp] at h
      rcases hrec : fixed_classes_loop [i] seed p.1 rest with e | q
      · rw [hrec] at h; cases h
      · rw [hrec] at h
        obtain ⟨st'', plans', lens'⟩ := q
        simp only [Except.ok.injEq, Prod.mk.injEq] at h
        obtain ⟨-, hpl, -⟩ := h
        subst hpl
        rw [List.mem_cons] at hplan
        rcases hplan with rfl | hplan
        · rw [split_class_dir_fixed] at hsp
          by_cases hle : p.2.length ≤ ([i] : List Nat).sum
          · rw [if_pos hle] at hsp; cases hsp
          · rw [if_neg hle] at hsp
            have hcp := Except.ok.inj hsp
            rw [← hcp] at hpr
            rcases split_files_no_test_labels _ _ _ pr hpr with h' | h' <;>
              · rw [h']; decide
        · exact ih p.1 st'' plans' lens' hrec plan hplan pr hpr

/-- C10.  Passing the `fixed` parameter as a bare integer `i` is coerced to
the one-element list `[i]` before the length check, so fixed mode with an
integer behaves exactly like fixed mode with a one-element tuple: same
result, and no test subset in any class's plan. -/
theorem c10_fixed_int_coercion (i st seed : Nat)
    (classes : List (Name × List Name)) :
    fixed_entry (.int i) st seed classes = fixed_entry (.tuple [i]) st seed classes ∧
    normalize_fixed (.int i) = [i] ∧
    no_test_plans (fixed_entry (.int i) st seed classes) := by
  refine ⟨rfl, rfl, ?_⟩
  have h : fixed_entry (.int i) st seed classes
      = some (fixed_classes_loop [i] seed st classes) := by
    rw [fixed_entry]
    simp only [normalize_fixed]
    rw [if_pos (by simp)]
  rw [h]
  rcases hr : fixed_classes_loop [i] seed st classes with e | q
  · trivial
  · obtain ⟨st', plans, lens⟩ := q
    show ∀ plan ∈ plans, ∀ pr ∈ plan, pr.2 ≠ "test"
    intro plan hplan pr hpr
    exact fixed_loop_one_count_no_test i seed classes st st' plans lens hr plan
      hplan pr hpr

/-! ## C2: determinism and enumeration-order independence -/

theorem pysort_eq_of_perm [LinearOrder α] {l1 l2 : List α} (h : l1.Perm l2) :
    pysort l1 = pysort l2 := by
  apply List.eq_of_perm_of_sorted (r := fun a b : α => a ≤ b)
  · exact (List.perm_insertionSort _ l1).trans
      (h.trans (List.perm_insertionSort _ l2).symm)
  · exact List.sorted_insertionSort _ l1
  · exact List.sorted_insertionSort _ l2

/-- C2 (amended).  Without grouping, the per-class pipeline is deterministic
and independent of the filesystem enumeration order: the enumerated list is
canonically sorted before the seeded shuffle, so any two enumerations of the
same file set (and any two incoming generator states, since the seed is reset
immediately before each class) produce the same shuffled sequence; and in the
per-class loop, each class's plan is the one obtained by processing that
class alone, independent of which classes were processed before it.  (With
grouping active this fails; see the counterexample.) -/
theorem c2_seeded_determinism :
    (∀ (seed st1 st2 : Nat) (l1 l2 : List Name), l1.Perm l2 →
      setup_files_plain st1 seed l1 = setup_files_plain st2 seed l2) ∧
    (∀ (seed st : Nat) (r : List ℚ) (classes : List (List Name)),
      (ratio_run seed r st classes).2
        = classes.map (fun c => ratio_plan (setup_files_plain 0 seed c).2 r)) := by
  constructor
  · intro seed st1 st2 l1 l2 h
    show shuffle (seed_state seed) (pysort l1) = shuffle (seed_state seed) (pysort l2)
    rw [pysort_eq_of_perm h]
  · intro seed st r classes
    induction classes generalizing st with
    | nil => rfl
    | cons c rest ih =>
      show (ratio_plan (setup_files_plain st seed c).2 r) :: _ = _
      rw [List.map_cons]
      exact congrArg₂ _ rfl (ih _)

/-- Witness for C2 at a concrete input: two enumeration orders of the same
two-file class, shuffled from different incoming generator states. -/
theorem c2_seeded_determinism_witness :
    (["b.jpg".data, "a.jpg".data] : List Name).Perm ["a.jpg".data, "b.jpg".data] ∧
    setup_files_plain 3 1337 ["b.jpg".data, "a.jpg".data]
      = setup_files_plain 9 1337 ["a.jpg".data, "b.jpg".data] :=
  ⟨by decide, c2_seeded_determinism.1 1337 3 9 _ _ (by decide)⟩

/-- Counterexample to C2 as stated: with grouping active the grouper runs on
the enumeration-ordered list *before* the canonical sort, and its result is
not enumeration-order independent.  The four files `abcd, abc, ab, a` with
`group_prefix = 2` are grouped into `(abcd, abc)` and `(ab, a)` when
enumerated longest-first, but enumerating shortest-first makes the grouper
raise (for `a`, candidate prefix `a`, three ungrouped files match where
exactly one is required), so the same seed and file set yield an error
instead of a plan. -/
theorem c2_grouped_order_dependence :
    (["abcd".data, "abc".data, "ab".data, "a".data] : List Name).Perm
      ["a".data, "ab".data, "abc".data, "abcd".data] ∧
    (∃ p, setup_files_grouped 0 1337 ["abcd".data, "abc".data, "ab".data, "a".data] 2
      = .ok p) ∧
    setup_files_grouped 0 1337 ["a".data, "ab".data, "abc".data, "abcd".data] 2
      = .error (.tooMany "a".data 3) ∧
    setup_files_grouped 0 1337 ["abcd".data, "abc".data, "ab".data, "a".data] 2
      ≠ setup_files_grouped 0 1337 ["a".data, "ab".data, "abc".data, "abcd".data] 2 := by
  refine ⟨by decide, ⟨_, rfl⟩, by decide, by decide⟩

/-! ## C7 and C9: the oversampler -/

theorem max_len_is_ub (l : List Nat) : ∀ x ∈ l, x ≤ max_len l := by
  induction l with
  | nil => intro x hx; cases hx
  | cons a t ih =>
    intro x hx
    rw [List.mem_cons] at hx
    rcases hx with rfl | hx
    · exact le_max_left _ _
    · exact le_trans (ih x hx) (le_max_right _ _)

theorem max_len_mem : ∀ (l : List Nat), l ≠ [] → max_len l ∈ l := by
  intro l
  induction l with
  | nil => intro h; exact absurd rfl h
  | cons a t ih =>
    intro _
    rcases t with _ | ⟨b, t'⟩
    · show max a (max_len []) ∈ [a]
      rw [show max_len [] = 0 from rfl, Nat.max_zero]
      exact List.mem_cons_self a []
    · have hml : max_len (a :: b :: t') = max a (max_len (b :: t')) := rfl
      rcases le_total (max_len (b :: t')) a with hle | hle
      · rw [hml, max_eq_left hle]
        exact List.mem_cons_self a _
      · rw [hml, max_eq_right hle]
        exact List.mem_cons_of_mem a (ih (by simp))

theorem ov_go_spec (pool : List TrainFile) (hne : pool ≠ []) :
    ∀ (need st i : Nat), ∃ st' dups, ov_go pool st i need = some (st', dups) ∧
      dups.length = need ∧
      ∀ (j : Nat) (hj : j < dups.length),
        dups[j].1 ∈ pool ∧ dups[j].2 = dup_file dups[j].1 (i + j) := by
  intro need
  induction need with
  | zero =>
    intro st i
    exact ⟨st, [], rfl, rfl, fun j hj => absurd hj (by simp)⟩
  | succ n ih =>
    intro st i
    obtain ⟨st', dups, hrec, hlen, hspec⟩ := ih (rand_below st pool.length).1 (i + 1)
    have hlt : (rand_below st pool.length).2 < pool.length :=
      Nat.mod_lt _ (List.length_pos.2 hne)
    have hget : pool[(rand_below st pool.length).2]?
        = some pool[(rand_below st pool.length).2] :=
      List.getElem?_eq_getElem hlt
    refine ⟨st', (pool[(rand_below st pool.length).2],
      dup_file pool[(rand_below st pool.length).2] i) :: dups, ?_, ?_, ?_⟩
    · simp only [ov_go]
      rw [hget, hrec]
    · simp [hlen]
    · intro j hj
      cases j with
      | zero =>
        simp only [List.getElem_cons_zero]
        exact ⟨List.getElem_mem hlt, by rw [Nat.add_zero]⟩
      | succ j' =>
        have hj' : j' < dups.length := by
          simp only [List.length_cons] at hj
          omega
        simp only [List.getElem_cons_succ]
        obtain ⟨h1, h2⟩ := hspec j' hj'
        refine ⟨h1, ?_⟩
        rw [h2]
        congr 1
        omega

theorem fixed_oversample_spec (m : Nat) :
    ∀ (classes : List (Nat × List TrainFile)) (st : Nat),
      (∀ c ∈ classes, c.2 ≠ []) →
      ∃ st' out, fixed_oversample st classes m = some (st', out) ∧
        List.Forall₂ (fun (c : Nat × List TrainFile) (o : List (TrainFile × TrainFile)) =>
          o.length = m - c.1 ∧
          ∀ (j : Nat) (hj : j < o.length),
            o[j].1 ∈ c.2 ∧ o[j].2 = dup_file o[j].1 j) classes out := by
  intro classes
  induction classes with
  | nil =>
    intro st _
    exact ⟨st, [], rfl, List.Forall₂.nil⟩
  | cons c rest ih =>
    intro st hp
    obtain ⟨st1, dups, hgo, hlen, hspec⟩ :=
      ov_go_spec c.2 (hp c (List.mem_cons_self c rest)) (m - c.1) st 0
    obtain ⟨st2, out, hrec, hfa⟩ := ih st1 (fun d hd => hp d (List.mem_cons_of_mem c hd))
    refine ⟨st2, dups :: out, ?_, ?_⟩
    · simp only [fixed_oversample, hgo, hrec]
    · refine List.Forall₂.cons ⟨hlen, fun j hj => ?_⟩ hfa
      obtain ⟨h1, h2⟩ := hspec j hj
      exact ⟨h1, by rw [h2, Nat.zero_add]⟩

/-- C7.  In fixed mode with oversampling, `maxLen` is the largest pre-split
class total, and each class receives exactly `maxLen - len` synthesized
duplicates; each duplicate copies a file of that class's train listing
(chosen via the process-wide generator state, which threads from class to
class without reseeding), named `<stem>_<i><suffix>` with `i` the 0-based
per-class duplication index and placed in the source file's directory; only
train listings are consumed and inflated. -/
theorem c7_oversample_exact (st : Nat) (classes : List (Nat × List TrainFile))
    (hpools : ∀ c ∈ classes, c.2 ≠ []) :
    (∀ x ∈ classes.map Prod.fst, x ≤ max_len (classes.map Prod.fst)) ∧
    (classes ≠ [] → max_len (classes.map Prod.fst) ∈ classes.map Prod.fst) ∧
    ∃ st' out,
      fixed_oversample st classes (max_len (classes.map Prod.fst)) = some (st', out) ∧
      List.Forall₂ (fun (c : Nat × List TrainFile) (o : List (TrainFile × TrainFile)) =>
        o.length = max_len (classes.map Prod.fst) - c.1 ∧
        ∀ (j : Nat) (hj : j < o.length),
          o[j].1 ∈ c.2 ∧ o[j].2 = dup_file o[j].1 j) classes out := by
  refine ⟨max_len_is_ub _, ?_, fixed_oversample_spec _ classes st hpools⟩
  intro hne
  exact max_len_mem _ (by simpa using hne)

/-- Witness for C7: two classes of pre-split sizes 3 and 1 with singleton
train listings; `maxLen = 3`, the first class gets 0 duplicates and the
second gets 2. -/
theorem c7_oversample_exact_witness :
    (∀ c ∈ [((3 : Nat), [(⟨["out".data, "train".data, "c1".data], "a".data,
        ".jpg".data⟩ : TrainFile)]),
      (1, [⟨["out".data, "train".data, "c2".data], "b".data, ".jpg".data⟩])],
      c.2 ≠ []) ∧
    ((∀ x ∈ ([((3 : Nat), [(⟨["out".data, "train".data, "c1".data], "a".data,
          ".jpg".data⟩ : TrainFile)]),
        (1, [⟨["out".data, "train".data, "c2".data], "b".data, ".jpg".data⟩])].map
          Prod.fst),
        x ≤ max_len ([((3 : Nat), [(⟨["out".data, "train".data, "c1".data], "a".data,
            ".jpg".data⟩ : TrainFile)]),
          (1, [⟨["out".data, "train".data, "c2".data], "b".data, ".jpg".data⟩])].map
            Prod.fst)) ∧
      (([((3 : Nat), [(⟨["out".data, "train".data, "c1".data], "a".data,
            ".jpg".data⟩ : TrainFile)]),
          (1, [⟨["out".data, "train".data, "c2".data], "b".data, ".jpg".data⟩])] :
            List (Nat × List TrainFile)) ≠ [] →
        max_len ([((3 : Nat), [(⟨["out".data, "train".data, "c1".data], "a".data,
            ".jpg".data⟩ : TrainFile)]),
          (1, [⟨["out".data, "train".data, "c2".data], "b".data, ".jpg".data⟩])].map
            Prod.fst) ∈
          [((3 : Nat), [(⟨["out".data, "train".data, "c1".data], "a".data,
              ".jpg".data⟩ : TrainFile)]),
            (1, [⟨["out".data, "train".data, "c2".data], "b".data, ".jpg".data⟩])].map
            Prod.fst) ∧
      ∃ st' out,
        fixed_oversample 5 [((3 : Nat), [(⟨["out".data, "train".data, "c1".data],
            "a".data, ".jpg".data⟩ : TrainFile)]),
          (1, [⟨["out".data, "train".data, "c2".data], "b".data, ".jpg".data⟩])]
          (max_len ([((3 : Nat), [(⟨["out".data, "train".data, "c1".data], "a".data,
              ".jpg".data⟩ : TrainFile)]),
            (1, [⟨["out".data, "train".data, "c2".data], "b".data, ".jpg".data⟩])].map
              Prod.fst)) = some (st', out) ∧
        List.Forall₂ (fun (c : Nat × List TrainFile) (o : List (TrainFile × TrainFile)) =>
          o.length = max_len ([((3 : Nat), [(⟨["out".data, "train".data, "c1".data],
              "a".data, ".jpg".data⟩ : TrainFile)]),
            (1, [⟨["out".data, "train".data, "c2".data], "b".data, ".jpg".data⟩])].map
              Prod.fst) - c.1 ∧
          ∀ (j : Nat) (hj : j < o.length),
            o[j].1 ∈ c.2 ∧ o[j].2 = dup_file o[j].1 j)
          [((3 : Nat), [(⟨["out".data, "train".data, "c1".data], "a".data,
              ".jpg".data⟩ : TrainFile)]),
            (1, [⟨["out".data, "train".data, "c2".data], "b".data, ".jpg".data⟩])]
          out) :=
  ⟨by decide, c7_oversample_exact 5 _ (by decide)⟩

theorem ov_go_sources (pool : List TrainFile) :
    ∀ (need st i st' : Nat) (dups : List (TrainFile × TrainFile)),
      ov_go pool st i need = some (st', dups) → ∀ d ∈ dups, d.1 ∈ pool := by
  intro need
  induction need with
  | zero =>
    intro st i st' dups h d hd
    simp only [ov_go, Option.some.injEq, Prod.mk.injEq] at h
    obtain ⟨-, h2⟩ := h
    subst h2
    cases hd
  | succ n ih =>
    intro st i st' dups h
    simp only [ov_go] at h
    rcases hg : pool[(rand_below st pool.length).2]? with _ | f
    · rw [hg] at h; cases h
    · rw [hg] at h
      rcases hr : ov_go pool (rand_below st pool.length).1 (i + 1) n with _ | q
      · rw [hr] at h; cases h
      · rw [hr] at h
        obtain ⟨st1, rest⟩ := q
        simp only [Option.some.injEq, Prod.mk.injEq] at h
        obtain ⟨-, h2⟩ := h
        subst h2
        intro d hd
        rw [List.mem_cons] at hd
        rcases hd with rfl | hd
        · obtain ⟨hlt, rfl⟩ := List.getElem?_eq_some_iff.1 hg
          exact List.getElem_mem hlt
        · exact ih _ _ _ _ hr d hd

/-- C9.  The candidate pool for a class's oversampling is its train listing,
made once before any duplicate of that class is created: every synthesized
duplicate copies a file of that pre-listing, and a file that first comes
into existence as a duplicate of the same class's run (one not present in
the pre-listing) is never itself chosen for further duplication. -/
theorem c9_oversample_pool_pre_listed (pool : List TrainFile)
    (st i need st' : Nat) (dups : List (TrainFile × TrainFile))
    (h : ov_go pool st i need = some (st', dups)) :
    ∀ d ∈ dups, d.1 ∈ pool ∧
      ∀ d' ∈ dups, d'.2 ∉ pool → d.1 ≠ d'.2 := by
  intro d hd
  refine ⟨ov_go_sources pool need st i st' dups h d hd, ?_⟩
  intro d' _ hnp heq
  exact hnp (heq ▸ ov_go_sources pool need st i st' dups h d hd)

/-- Witness for C9: a singleton pool duplicated twice; both duplicates copy
the pre-listed file and neither synthesized file is a source. -/
theorem c9_oversample_pool_pre_listed_witness :
    ov_go [(⟨["out".data, "train".data, "c1".data], "img".data, ".jpg".data⟩ :
        TrainFile)] 7 0 2
      = some (next_rand (next_rand 7),
        [(⟨["out".data, "train".data, "c1".data], "img".data, ".jpg".data⟩,
          dup_file ⟨["out".data, "train".data, "c1".data], "img".data, ".jpg".data⟩ 0),
         (⟨["out".data, "train".data, "c1".data], "img".data, ".jpg".data⟩,
          dup_file ⟨["out".data, "train".data, "c1".data], "img".data, ".jpg".data⟩ 1)]) ∧
    (∀ d ∈ [((⟨["out".data, "train".data, "c1".data], "img".data, ".jpg".data⟩ :
          TrainFile),
        dup_file ⟨["out".data, "train".data, "c1".data], "img".data, ".jpg".data⟩ 0),
        (⟨["out".data, "train".data, "c1".data], "img".data, ".jpg".data⟩,
        dup_file ⟨["out".data, "train".data, "c1".data], "img".data, ".jpg".data⟩ 1)],
      d.1 ∈ [(⟨["out".data, "train".data, "c1".data], "img".data, ".jpg".data⟩ :
          TrainFile)] ∧
      ∀ d' ∈ [((⟨["out".data, "train".data, "c1".data], "img".data, ".jpg".data⟩ :
            TrainFile),
          dup_file ⟨["out".data, "train".data, "c1".data], "img".data, ".jpg".data⟩ 0),
          (⟨["out".data, "train".data, "c1".data], "img".data, ".jpg".data⟩,
          dup_file ⟨["out".data, "train".data, "c1".data], "img".data, ".jpg".data⟩ 1)],
        d'.2 ∉ [(⟨["out".data, "train".data, "c1".data], "img".data, ".jpg".data⟩ :
            TrainFile)] → d.1 ≠ d'.2) := by
  constructor
  · decide
  · exact c9_oversample_pool_pre_listed
      [⟨["out".data, "train".data, "c1".data], "img".data, ".jpg".data⟩] 7 0 2
      (next_rand (next_rand 7))
      [(⟨["out".data, "train".data, "c1".data], "img".data, ".jpg".data⟩,
        dup_file ⟨["out".data, "train".data, "c1".data], "img".data, ".jpg".data⟩ 0),
       (⟨["out".data, "train".data, "c1".data], "img".data, ".jpg".data⟩,
        dup_file ⟨["out".data, "train".data, "c1".data], "img".data, ".jpg".data⟩ 1)]
      (by decide)

/-! ## C8: single-file transfer destinations -/

theorem rel_after_go_append (cn : Name) (rel : List Name) (hrel : rel ≠ []) :
    ∀ pre', cn ∉ pre' → rel_after_go cn (pre' ++ cn :: rel) = some rel := by
  intro pre'
  induction pre' with
  | nil =>
    intro _
    show (if cn = cn ∧ rel ≠ [] then some rel else rel_after_go cn rel) = some rel
    rw [if_pos ⟨rfl, hrel⟩]
  | cons q t ih =>
    intro hq
    show (if q = cn ∧ (t ++ cn :: rel) ≠ [] then some (t ++ cn :: rel)
        else rel_after_go cn (t ++ cn :: rel)) = some rel
    rw [if_neg, ih (fun hm => hq (List.mem_cons_of_mem q hm))]
    intro hc
    exact hq (hc.1 ▸ List.mem_cons_self q t)

theorem basename_append_rel (pre : List Name) (cn : Name) (rel : List Name)
    (hrel : rel ≠ []) : basename (pre ++ cn :: rel) = rel.getLastD [] := by
  rcases rel with _ | ⟨x, t⟩
  · exact absurd rfl hrel
  · show (pre ++ cn :: x :: t).getLastD [] = (x :: t).getLastD []
    rw [List.getLastD_eq_getLast?, List.getLastD_eq_getLast?, List.getLast?_append,
      List.getLast?_cons_cons]
    obtain ⟨a, ha⟩ := Option.isSome_iff_exists.1 (List.getLast?_isSome.2
      (show (x :: t) ≠ [] by simp))
    rw [ha]
    rfl

/-- C8 (amended).  A single file at relative path `rel` beneath its class
directory (`rel = [name]` when it sits directly in the class directory) is
copied by copy mode to the recreated relative sub-path
`full_path ++ rel`; move mode instead moves it directly into the destination
class directory at its basename, without recreating the sub-path.  Copy mode
leaves the source file in place, move mode removes it after the transfer. -/
theorem c8_single_file_destinations (cn : Name) (fp : Path) (pre rel : List Name)
    (hpre : pre ≠ []) (hrel : rel ≠ []) (hno : cn ∉ pre.tail) :
    copy_dest cn fp (pre ++ cn :: rel) = fp ++ rel ∧
    move_dest fp (pre ++ cn :: rel) = fp ++ [rel.getLastD []] ∧
    (∀ (fs : List Path) (t : Transfer), t.src ∈ fs →
      t.src ∈ apply_copy fs t ∧ t.dest ∈ apply_copy fs t) ∧
    (∀ (fs : List Path) (t : Transfer), fs.Nodup → t.src ≠ t.dest →
      t.dest ∈ apply_move fs t ∧ t.src ∉ apply_move fs t) := by
  refine ⟨?_, ?_, ?_, ?_⟩
  · rcases pre with _ | ⟨p0, pre'⟩
    · exact absurd rfl hpre
    · show copy_dest cn fp (p0 :: (pre' ++ cn :: rel)) = fp ++ rel
      unfold copy_dest
      rw [show rel_after cn (p0 :: (pre' ++ cn :: rel))
          = rel_after_go cn (pre' ++ cn :: rel) from rfl,
        rel_after_go_append cn rel hrel pre' hno]
  · show fp ++ [basename (pre ++ cn :: rel)] = fp ++ [rel.getLastD []]
    rw [basename_append_rel pre cn rel hrel]
  · intro fs t hsrc
    exact ⟨List.mem_cons_of_mem _ hsrc, List.mem_cons_self _ _⟩
  · intro fs t hnd hne
    refine ⟨List.mem_cons_self _ _, ?_⟩
    intro hmem
    simp only [apply_move, List.mem_cons] at hmem
    rcases hmem with h | h
    · exact hne h
    · exact ((hnd.mem_erase_iff).1 h).1 rfl

/-- Witness for C8: the nested file `input/class1/sub/img.jpg` copied and
moved towards `output/train/class1`, plus the filesystem effects of one copy
and one move. -/
theorem c8_single_file_destinations_witness :
    ((["input".data] : List Name) ≠ [] ∧
      (["sub".data, "img.jpg".data] : List Name) ≠ [] ∧
      "class1".data ∉ (["input".data] : List Name).tail) ∧
    copy_dest "class1".data ["output".data, "train".data, "class1".data]
        (["input".data] ++ "class1".data :: ["sub".data, "img.jpg".data])
      = ["output".data, "train".data, "class1".data] ++ ["sub".data, "img.jpg".data] ∧
    move_dest ["output".data, "train".data, "class1".data]
        (["input".data] ++ "class1".data :: ["sub".data, "img.jpg".data])
      = ["output".data, "train".data, "class1".data] ++
          [(["sub".data, "img.jpg".data] : List Name).getLastD []] ∧
    (["x".data] : Path) ∈ apply_copy [[["x".data]].flatten]
        ⟨["x".data], ["y".data]⟩ ∧
    (["y".data] : Path) ∈ apply_copy [[["x".data]].flatten]
        ⟨["x".data], ["y".data]⟩ ∧
    (["y".data] : Path) ∈ apply_move [[["x".data]].flatten]
        ⟨["x".data], ["y".data]⟩ ∧
    (["x".data] : Path) ∉ apply_move [[["x".data]].flatten]
        ⟨["x".data], ["y".data]⟩ := by
  have h := c8_single_file_destinations "class1".data
    ["output".data, "train".data, "class1".data] ["input".data]
    ["sub".data, "img.jpg".data] (by decide) (by decide) (by decide)
  have hc := h.2.2.1 [["x".data]] ⟨["x".data], ["y".data]⟩ (by decide)
  have hm := h.2.2.2 [["x".data]] ⟨["x".data], ["y".data]⟩ (by decide) (by decide)
  exact ⟨⟨by decide, by decide, by decide⟩, h.1, h.2.1,
    by simpa using hc.1, by simpa using hc.2, by simpa using hm.1,
    by simpa using hm.2⟩

/-- Counterexample to C8 as stated: move mode does not recreate the nested
relative sub-path.  `shutil.move(f, full_path)` places
`input/class1/sub/img.jpg` at `output/train/class1/img.jpg`, not at
`output/train/class1/sub/img.jpg` as the claim asserts for move mode (copy
mode does use the latter destination). -/
theorem c8_move_flattens_counterexample :
    move_dest ["output".data, "train".data, "class1".data]
        ["input".data, "class1".data, "sub".data, "img.jpg".data]
      = ["output".data, "train".data, "class1".data, "img.jpg".data] ∧
    move_dest ["output".data, "train".data, "class1".data]
        ["input".data, "class1".data, "sub".data, "img.jpg".data]
      ≠ ["output".data, "train".data, "class1".data, "sub".data, "img.jpg".data] ∧
    copy_dest "class1".data ["output".data, "train".data, "class1".data]
        ["input".data, "class1".data, "sub".data, "img.jpg".data]
      = ["output".data, "train".data, "class1".data, "sub".data, "img.jpg".data] := by
  refine ⟨by decide, by decide, by decide⟩

/-! ## C5: group tuples in the materializer -/

/-- C5 is a code bug: the check-list loop of `copy_files`/`move_files`
removes the current tuple from the list it is iterating over, so with two
adjacent group tuples the second is skipped by the loop and then reaches the
per-file worker, which raises on a tuple.  At the failing input - a subset
holding the two groups `(pa1, pa2)` and `(pb1, pb2)` - the loop transfers
only the first group's members and leaves the second group in the job list,
the copy batch aborts (`false`), the move batch aborts likewise, and no
member of the second group is ever transferred. -/
theorem c5_group_transfer_check_loop_bug :
    tuple_scan [(.group [["c1".data, "pa1.jpg".data], ["c1".data, "pa2.jpg".data]] :
        Entry Path),
      .group [["c1".data, "pb1.jpg".data], ["c1".data, "pb2.jpg".data]]]
      = ([.group [["c1".data, "pb1.jpg".data], ["c1".data, "pb2.jpg".data]]],
         [["c1".data, "pa1.jpg".data], ["c1".data, "pa2.jpg".data]]) ∧
    copy_batch "c1".data ["out".data, "train".data, "c1".data]
        [.group [["c1".data, "pa1.jpg".data], ["c1".data, "pa2.jpg".data]],
         .group [["c1".data, "pb1.jpg".data], ["c1".data, "pb2.jpg".data]]]
      = ([⟨["c1".data, "pa1.jpg".data],
            ["out".data, "train".data, "c1".data, "pa1.jpg".data]⟩,
          ⟨["c1".data, "pa2.jpg".data],
            ["out".data, "train".data, "c1".data, "pa2.jpg".data]⟩], false) ∧
    (move_batch ["out".data, "train".data, "c1".data]
        [.group [["c1".data, "pa1.jpg".data], ["c1".data, "pa2.jpg".data]],
         .group [["c1".data, "pb1.jpg".data], ["c1".data, "pb2.jpg".data]]]).2
      = false ∧
    (∀ t ∈ (copy_batch "c1".data ["out".data, "train".data, "c1".data]
        [.group [["c1".data, "pa1.jpg".data], ["c1".data, "pa2.jpg".data]],
         .group [["c1".data, "pb1.jpg".data], ["c1".data, "pb2.jpg".data]]]).1,
      t.src ≠ ["c1".data, "pb1.jpg".data] ∧ t.src ≠ ["c1".data, "pb2.jpg".data]) := by
  refine ⟨by decide, by decide, by decide, by decide⟩

/-! ## C6: round trip of the plain pipeline -/

theorem swap_at_perm [DecidableEq α] (l : List α) (i j : Nat) :
    (swap_at l i j).Perm l := by
  unfold swap_at
  cases hgi : l[i]? with
  | none => exact List.Perm.refl l
  | some a =>
    cases hgj : l[j]? with
    | none => exact List.Perm.refl l
    | some b =>
      obtain ⟨hi, hia⟩ := List.getElem?_eq_some_iff.1 hgi
      obtain ⟨hj, hjb⟩ := List.getElem?_eq_some_iff.1 hgj
      have hj' : j < (l.set i b).length := by rw [List.length_set]; exact hj
      rw [List.perm_iff_count]
      intro x
      rw [List.count_set a x (l.set i b) j hj', List.count_set b x l i hi]
      have hsetj : (l.set i b)[j] = b := by
        by_cases hij : i = j
        · subst hij
          exact List.getElem_set_self hj'
        · rw [List.getElem_set_ne hij hj']
          exact hjb
      rw [hsetj, hia]
      have hmem : a ∈ l := hia ▸ List.getElem_mem hi
      have ha_le : (if (a == x) = true then 1 else 0) ≤ l.count x := by
        split
        · rename_i hax
          have : a = x := eq_of_beq hax
          subst this
          exact List.count_pos_iff.2 hmem
        · exact Nat.zero_le _
      omega

theorem shuffle_from_perm [DecidableEq α] :
    ∀ (i s : Nat) (l : List α), ((shuffle_from i s l).2).Perm l := by
  intro i
  induction i with
  | zero => intro s l; exact List.Perm.refl l
  | succ n ih =>
    intro s l
    rw [show shuffle_from (n + 1) s l
        = shuffle_from n (rand_below s (n + 2)).1
            (swap_at l (n + 1) (rand_below s (n + 2)).2) from rfl]
    exact (ih _ _).trans (swap_at_perm l (n + 1) _)

theorem shuffle_snd_perm [DecidableEq α] (s : Nat) (l : List α) :
    ((shuffle s l).2).Perm l :=
  shuffle_from_perm _ _ _

theorem setup_plain_perm (st seed : Nat) (files : List Name) :
    ((setup_files_plain st seed files).2).Perm files :=
  (shuffle_snd_perm _ _).trans (List.perm_insertionSort _ files)

theorem split_files_parts (files : List α) (a i : Nat) (u : Bool) :
    ((split_files files a (a + i) u).map Prod.fst).flatten = files := by
  cases u
  · rw [split_files_no_test]
    simp only [List.map_cons, List.map_nil, List.flatten_cons, List.flatten_nil,
      List.append_nil]
    exact List.take_append_drop a files
  · rw [split_files_with_test, Nat.add_sub_cancel_left]
    simp only [List.map_cons, List.map_nil, List.flatten_cons, List.flatten_nil,
      List.append_nil]
    rw [← List.append_assoc]
    exact take_drop_take_append files a i

theorem ratio_plan_parts (files : List α) (r : List ℚ) :
    ((ratio_plan files r).map Prod.fst).flatten = files := by
  have h : ratio_plan files r
      = split_files files (ratio_idx (r.headD 0) files.length)
          (ratio_idx (r.headD 0) files.length
            + ratio_idx ((r.drop 1).headD 0) files.length)
          (decide (r.length = 3)) := rfl
  rw [h]
  exact split_files_parts files _ _ _

theorem tuple_scan_go_no_groups [DecidableEq α] :
    ∀ (fuel : Nat) (fs : List (Entry α)) (i : Nat) (done : List α),
      (∀ e ∈ fs, ∃ f, e = .single f) →
      tuple_scan_go fuel fs i done = (fs, done) := by
  intro fuel
  induction fuel with
  | zero => intro fs i done _; rfl
  | succ n ih =>
    intro fs i done hall
    simp only [tuple_scan_go]
    split
    · rename_i h
      obtain ⟨f, hf⟩ := hall fs[i] (List.getElem_mem h)
      rw [hf]
      exact ih fs (i + 1) done hall
    · rfl

theorem tuple_scan_singles [DecidableEq α] (names : List α) :
    tuple_scan (names.map Entry.single) = (names.map Entry.single, []) := by
  apply tuple_scan_go_no_groups
  intro e he
  rw [List.mem_map] at he
  obtain ⟨f, -, rfl⟩ := he
  exact ⟨f, rfl⟩

theorem run_copy_workers_singles (cn : Name) (fp : Path) :
    ∀ (paths : List Path),
      run_copy_workers cn fp (paths.map Entry.single)
        = (paths.map (fun f => (⟨f, copy_dest cn fp f⟩ : Transfer)), true) := by
  intro paths
  induction paths with
  | nil => rfl
  | cons f t ih =>
    simp only [List.map_cons, run_copy_workers, ih]

theorem copy_batch_singles (cn : Name) (fp : Path) (paths : List Path) :
    copy_batch cn fp (paths.map Entry.single)
      = (paths.map (fun f => (⟨f, copy_dest cn fp f⟩ : Transfer)), true) := by
  simp only [copy_batch, tuple_scan_singles, run_copy_workers_singles,
    List.map_nil, List.nil_append]

theorem copy_files_singles (cn out : Name) :
    ∀ (plan : List (List Path × String)),
      copy_files cn out (plan.map fun b => (b.1.map Entry.single, b.2))
        = ((plan.map fun b => b.1.map fun f =>
            (⟨f, copy_dest cn [out, b.2.data, cn] f⟩ : Transfer)).flatten, true) := by
  intro plan
  induction plan with
  | nil => rfl
  | cons b t ih =>
    simp only [List.map_cons, copy_files, copy_batch_singles, ih,
      List.flatten_cons, if_true]

/-- C6 (amended).  With oversampling disabled and grouping inactive, every
file enumerated from the class directory appears in exactly one of the
output subsets: the per-class ratio pipeline completes without error, the
multiset of transferred sources is exactly the multiset of enumerated class
files, and (for an enumeration without duplicates) each file is the source
of exactly one transfer. -/
theorem c6_round_trip_no_grouping (st seed : Nat) (cn out : Name)
    (names : List Name) (r : List ℚ) :
    (ratio_class_plain_copy st seed cn names r out).2 = true ∧
    ((ratio_class_plain_copy st seed cn names r out).1.map Transfer.src).Perm
      (names.map fun n => ([cn, n] : Path)) ∧
    (names.Nodup → ∀ n ∈ names,
      ((ratio_class_plain_copy st seed cn names r out).1.map Transfer.src).count
        ([cn, n] : Path) = 1) := by
  have hwrap : (ratio_plan (setup_files_plain st seed names).2 r).map
        (fun b => (b.1.map (fun n => Entry.single ([cn, n] : Path)), b.2))
      = ((ratio_plan (setup_files_plain st seed names).2 r).map
          (fun b => (b.1.map (fun n => ([cn, n] : Path)), b.2))).map
          (fun b => (b.1.map Entry.single, b.2)) := by
    simp [List.map_map, Function.comp]
  have hrun : ratio_class_plain_copy st seed cn names r out
      = ((((ratio_plan (setup_files_plain st seed names).2 r).map
          (fun b => (b.1.map (fun n => ([cn, n] : Path)), b.2))).map
          (fun b => b.1.map fun f =>
            (⟨f, copy_dest cn [out, b.2.data, cn] f⟩ : Transfer))).flatten, true) := by
    show copy_files cn out ((ratio_plan (setup_files_plain st seed names).2 r).map
        (fun b => (b.1.map (fun n => Entry.single ([cn, n] : Path)), b.2))) = _
    rw [hwrap, copy_files_singles]
  have hmapsrc : ∀ (L : List (List Path × String)),
      (((L.map fun b => b.1.map fun f =>
          (⟨f, copy_dest cn [out, b.2.data, cn] f⟩ : Transfer)).flatten).map
        Transfer.src) = (L.map Prod.fst).flatten := by
    intro L
    induction L with
    | nil => rfl
    | cons b t ih =>
      simp only [List.map_cons, List.flatten_cons, List.map_append, ih,
        List.map_map]
      congr 1
      rw [show (Transfer.src ∘ fun f =>
          (⟨f, copy_dest cn [out, b.2.data, cn] f⟩ : Transfer)) = (id : Path → Path)
        from rfl, List.map_id]
  have hsrc : (ratio_class_plain_copy st seed cn names r out).1.map Transfer.src
      = ((setup_files_plain st seed names).2).map (fun n => ([cn, n] : Path)) := by
    rw [hrun]
    show (List.map Transfer.src _) = _
    rw [hmapsrc]
    have hfst : (((ratio_plan (setup_files_plain st seed names).2 r).map
          (fun b => (b.1.map (fun n => ([cn, n] : Path)), b.2))).map Prod.fst)
        = ((ratio_plan (setup_files_plain st seed names).2 r).map Prod.fst).map
            (List.map (fun n => ([cn, n] : Path))) := by
      simp [List.map_map, Function.comp]
    rw [hfst, ← List.map_flatten, ratio_plan_parts]
  refine ⟨?_, ?_, ?_⟩
  · rw [hrun]
  · rw [hsrc]
    exact (setup_plain_perm st seed names).map _
  · intro hnd n hn
    rw [hsrc]
    have hinj : Function.Injective (fun n : Name => ([cn, n] : Path)) := by
      intro a b h
      simpa using h
    have hperm := (setup_plain_perm st seed names).map
      (fun n : Name => ([cn, n] : Path))
    have h1 := hperm.count_eq ([cn, n] : Path)
    have h2 := List.count_map_of_injective names
      (fun m : Name => ([cn, m] : Path)) hinj n
    rw [show (List.instBEq : BEq Path) = instBEqOfDecidableEq from
      lawful_beq_subsingleton _ _]
    exact h1.trans (h2.trans (List.count_eq_one_of_mem hnd hn))

/-- Witness for C6 at a concrete input: three distinct files split with
ratio `(1/2, 1/2)`. -/
theorem c6_round_trip_no_grouping_witness :
    (["b.jpg".data, "a.jpg".data, "c.jpg".data] : List Name).Nodup ∧
    (ratio_class_plain_copy 0 1337 "c1".data
      ["b.jpg".data, "a.jpg".data, "c.jpg".data] [1/2, 1/2] "out".data).2 = true ∧
    ((ratio_class_plain_copy 0 1337 "c1".data
        ["b.jpg".data, "a.jpg".data, "c.jpg".data] [1/2, 1/2] "out".data).1.map
        Transfer.src).Perm
      (["b.jpg".data, "a.jpg".data, "c.jpg".data].map
        fun n => (["c1".data, n] : Path)) ∧
    (∀ n ∈ (["b.jpg".data, "a.jpg".data, "c.jpg".data] : List Name),
      ((ratio_class_plain_copy 0 1337 "c1".data
          ["b.jpg".data, "a.jpg".data, "c.jpg".data] [1/2, 1/2] "out".data).1.map
          Transfer.src).count (["c1".data, n] : Path) = 1) :=
  ⟨by decide,
    (c6_round_trip_no_grouping 0 1337 "c1".data "out".data
      ["b.jpg".data, "a.jpg".data, "c.jpg".data] [1/2, 1/2]).1,
    (c6_round_trip_no_grouping 0 1337 "c1".data "out".data
      ["b.jpg".data, "a.jpg".data, "c.jpg".data] [1/2, 1/2]).2.1,
    (c6_round_trip_no_grouping 0 1337 "c1".data "out".data
      ["b.jpg".data, "a.jpg".data, "c.jpg".data] [1/2, 1/2]).2.2 (by decide)⟩

/-- Counterexample to C6 as stated: with grouping active (four files grouped
in pairs, ratio `(1.0, 0.0)` putting both pairs in train), the check-list
loop of `copy_files` transfers only the first pair and the run aborts on the
second; `pb1.jpg` (and `pb2.jpg`) appear in no output subset, so not every
enumerated file appears in exactly one subset. -/
theorem c6_grouped_omission_counterexample :
    ratio_class_grouped_copy 0 1337 "c1".data
        ["pa1.jpg".data, "pa2.jpg".data, "pb1.jpg".data, "pb2.jpg".data] 2
        [1, 0] "out".data
      = .ok ([⟨["c1".data, "pa1.jpg".data],
                ["out".data, "train".data, "c1".data, "pa1.jpg".data]⟩,
              ⟨["c1".data, "pa2.jpg".data],
                ["out".data, "train".data, "c1".data, "pa2.jpg".data]⟩], false) ∧
    (∀ t ∈ [(⟨["c1".data, "pa1.jpg".data],
                ["out".data, "train".data, "c1".data, "pa1.jpg".data]⟩ : Transfer),
             ⟨["c1".data, "pa2.jpg".data],
                ["out".data, "train".data, "c1".data, "pa2.jpg".data]⟩],
      t.src ≠ ["c1".data, "pb1.jpg".data] ∧ t.src ≠ ["c1".data, "pb2.jpg".data]) := by
  constructor
  · have hsetup : setup_files_grouped 0 1337
        ["pa1.jpg".data, "pa2.jpg".data, "pb1.jpg".data, "pb2.jpg".data] 2
        = .ok (next_rand (seed_state 1337),
            [["pa1.jpg".data, "pa2.jpg".data], ["pb1.jpg".data, "pb2.jpg".data]]) := by
      decide
    have h2 : ratio_idx 1 2 = 2 := by
      simp only [ratio_idx, one_mul]
      rw [show ((2 : Nat) : ℚ) = ((2 : Int) : ℚ) by norm_num, Int.floor_intCast]
      rfl
    have h0 : ratio_idx 0 2 = 0 := by
      simp only [ratio_idx, zero_mul, Int.floor_zero, Int.toNat_zero]
    have hplan : ratio_plan
          ([["pa1.jpg".data, "pa2.jpg".data], ["pb1.jpg".data, "pb2.jpg".data]] :
            List (List Name)) [1, 0]
        = [([["pa1.jpg".data, "pa2.jpg".data], ["pb1.jpg".data, "pb2.jpg".data]],
            "train"), ([], "val")] := by
      have hp : ratio_plan
            ([["pa1.jpg".data, "pa2.jpg".data], ["pb1.jpg".data, "pb2.jpg".data]] :
              List (List Name)) [1, 0]
          = split_files
              ([["pa1.jpg".data, "pa2.jpg".data], ["pb1.jpg".data, "pb2.jpg".data]] :
                List (List Name))
              (ratio_idx 1 2) (ratio_idx 1 2 + ratio_idx 0 2) false := rfl
      rw [hp, h2, h0, split_files_no_test]
      rfl
    show ratio_class_grouped_copy 0 1337 "c1".data
        ["pa1.jpg".data, "pa2.jpg".data, "pb1.jpg".data, "pb2.jpg".data] 2
        [1, 0] "out".data = _
    simp only [ratio_class_grouped_copy, hsetup, hplan]
    decide
  · decide

/-! ## C4: the prefix grouper partitions the files -/

theorem matches_at_mem {nm : α → Name} {files : List α} {rs : Finset Name}
    {fname fsub : Name} {x : α} (h : x ∈ matches_at nm files rs fname fsub) :
    x ∈ files ∧ nm x ∉ rs ∧ fname ≠ nm x := by
  rw [matches_at, List.mem_filter] at h
  obtain ⟨h1, h2⟩ := h
  simp only [Bool.and_eq_true, decide_eq_true_eq] at h2
  exact ⟨h1, h2.1.1, h2.2⟩

theorem matches_at_sublist (nm : α → Name) (files : List α) (rs : Finset Name)
    (fname fsub : Name) : (matches_at nm files rs fname fsub).Sublist files :=
  List.filter_sublist files

theorem find_group_ok_shape (nm : α → Name) (files : List α) (rs : Finset Name)
    (fname : Name) (k : Nat) :
    ∀ (fuel : Nat) (fsub : Name) (ms : List α),
      find_group nm files rs fname k fuel fsub = .ok ms →
      ∃ fsub', ms = matches_at nm files rs fname fsub' ∧ ms.length = k - 1 := by
  intro fuel
  induction fuel with
  | zero => intro fsub ms h; exact Except.noConfusion h
  | succ n ih =>
    intro fsub ms h
    simp only [find_group] at h
    by_cases h1 : (matches_at nm files rs fname fsub).length = k - 1
    · rw [if_pos h1] at h
      exact ⟨fsub, (Except.ok.inj h).symm, (Except.ok.inj h) ▸ h1⟩
    · rw [if_neg h1] at h
      by_cases h2 : (matches_at nm files rs fname fsub).length < k - 1
      · rw [if_pos h2] at h
        exact ih _ _ h
      · rw [if_neg h2] at h
        exact Except.noConfusion h

theorem find_group_error_spec (nm : α → Name) (files : List α) (rs : Finset Name)
    (fname : Name) (k : Nat) :
    ∀ (fuel : Nat) (fsub : Name) (e : GroupErr),
      find_group nm files rs fname k fuel fsub = .error e →
      find_group_err_ok k e := by
  intro fuel
  induction fuel with
  | zero =>
    intro fsub e h
    rw [show find_group nm files rs fname k 0 fsub
        = .error (.noAdequate fname) from rfl] at h
    rw [← Except.error.inj h]
    trivial
  | succ n ih =>
    intro fsub e h
    simp only [find_group] at h
    by_cases h1 : (matches_at nm files rs fname fsub).length = k - 1
    · rw [if_pos h1] at h
      exact Except.noConfusion h
    · rw [if_neg h1] at h
      by_cases h2 : (matches_at nm files rs fname fsub).length < k - 1
      · rw [if_pos h2] at h
        exact ih _ _ h
      · rw [if_neg h2] at h
        rw [← Except.error.inj h]
        show k - 1 < (matches_at nm files rs fname fsub).length
        omega

theorem group_loop_invariant (nm : α → Name) (files : List α) (k : Nat)
    (hk : 2 ≤ k) :
    ∀ (rem : List α) (results : List (List α)) (rs : Finset Name)
      (res' : List (List α)) (rs' : Finset Name),
      (∀ x ∈ rem, x ∈ files) →
      (∀ g ∈ results, g.length = k) →
      (results.flatten.map nm).toFinset = rs →
      (∀ x ∈ results.flatten, x ∈ files) →
      ((files.map nm).Nodup → (results.flatten.map nm).Nodup) →
      group_loop nm files k rem results rs = .ok (res', rs') →
      (∀ g ∈ res', g.length = k) ∧
      (res'.flatten.map nm).toFinset = rs' ∧
      (∀ x ∈ res'.flatten, x ∈ files) ∧
      ((files.map nm).Nodup → (res'.flatten.map nm).Nodup) := by
  intro rem
  induction rem with
  | nil =>
    intro results rs res' rs' _ ha hb hc hd h
    rw [show group_loop nm files k [] results rs = .ok (results, rs) from rfl] at h
    simp only [Except.ok.injEq, Prod.mk.injEq] at h
    obtain ⟨h1, h2⟩ := h
    subst h1
    subst h2
    exact ⟨ha, hb, hc, hd⟩
  | cons f rest ih =>
    intro results rs res' rs' hrem ha hb hc hd h
    simp only [group_loop] at h
    by_cases hf : nm f ∈ rs
    · rw [if_pos hf] at h
      exact ih results rs res' rs'
        (fun x hx => hrem x (List.mem_cons_of_mem f hx)) ha hb hc hd h
    · rw [if_neg hf] at h
      rcases hfind : find_group nm files rs (nm f) k (nm f).length (nm f) with e | ms
      · rw [hfind] at h
        exact Except.noConfusion h
      · rw [hfind] at h
        obtain ⟨fsub', hms, hmslen⟩ :=
          find_group_ok_shape nm files rs (nm f) k _ _ _ hfind
        have hfin : f ∈ files := hrem f (List.mem_cons_self f rest)
        have hmsub : ∀ x ∈ ms, x ∈ files ∧ nm x ∉ rs ∧ nm f ≠ nm x := by
          intro x hx
          rw [hms] at hx
          exact matches_at_mem hx
        have hflat : (results ++ [f :: ms]).flatten
            = results.flatten ++ (f :: ms) := by
          rw [List.flatten_append]
          simp
        have ha2 : ∀ g ∈ results ++ [f :: ms], g.length = k := by
          intro g hg
          rw [List.mem_append] at hg
          rcases hg with hg | hg
          · exact ha g hg
          · rw [List.mem_singleton] at hg
            subst hg
            simp only [List.length_cons]
            omega
        have hb2 : ((results ++ [f :: ms]).flatten.map nm).toFinset
            = rs ∪ (nm f :: ms.map nm).toFinset := by
          rw [hflat, List.map_append, List.toFinset_append, hb, List.map_cons]
        have hc2 : ∀ x ∈ (results ++ [f :: ms]).flatten, x ∈ files := by
          intro x hx
          rw [hflat, List.mem_append] at hx
          rcases hx with hx | hx
          · exact hc x hx
          · rw [List.mem_cons] at hx
            rcases hx with rfl | hx
            · exact hfin
            · exact (hmsub x hx).1
        have hd2 : (files.map nm).Nodup →
            (((results ++ [f :: ms]).flatten).map nm).Nodup := by
          intro hN
          rw [hflat, List.map_append]
          apply List.Nodup.append (hd hN)
          · rw [List.map_cons]
            refine List.nodup_cons.2 ⟨?_, ?_⟩
            · intro hmm
              rw [List.mem_map] at hmm
              obtain ⟨y, hy, hny⟩ := hmm
              exact (hmsub y hy).2.2 hny.symm
            · have hsub : (ms.map nm).Sublist (files.map nm) := by
                rw [hms]
                exact (matches_at_sublist nm files rs (nm f) fsub').map nm
              exact hsub.nodup hN
          · rw [List.disjoint_left]
            intro a haj hag
            have hars : a ∈ rs := by
              rw [← hb]
              exact List.mem_toFinset.2 haj
            rw [List.map_cons, List.mem_cons] at hag
            rcases hag with rfl | hag
            · exact hf hars
            · rw [List.mem_map] at hag
              obtain ⟨y, hy, rfl⟩ := hag
              exact (hmsub y hy).2.1 hars
        exact ih (results ++ [f :: ms]) (rs ∪ (nm f :: ms.map nm).toFinset)
          res' rs' (fun x hx => hrem x (List.mem_cons_of_mem f hx))
          ha2 hb2 hc2 hd2 h

theorem group_loop_error_spec (nm : α → Name) (files : List α) (k : Nat) :
    ∀ (rem : List α) (results : List (List α)) (rs : Finset Name) (e : GroupErr),
      group_loop nm files k rem results rs = .error e → find_group_err_ok k e := by
  intro rem
  induction rem with
  | nil =>
    intro results rs e h
    rw [show group_loop nm files k [] results rs = .ok (results, rs) from rfl] at h
    exact Except.noConfusion h
  | cons f rest ih =>
    intro results rs e h
    simp only [group_loop] at h
    by_cases hf : nm f ∈ rs
    · rw [if_pos hf] at h
      exact ih _ _ _ h
    · rw [if_neg hf] at h
      rcases hfind : find_group nm files rs (nm f) k (nm f).length (nm f) with e' | ms
      · rw [hfind] at h
        rw [← Except.error.inj h]
        exact find_group_error_spec nm files rs (nm f) k _ _ _ hfind
      · rw [hfind] at h
        exact ih _ _ _ h

/-- C4.  The prefix grouper either returns groups of size exactly `k` in
which every input file occurs exactly once, or raises a grouping error; the
errors are exactly: too many ungrouped files sharing a candidate prefix
(strictly more than `k - 1`), a file whose prefix is exhausted without an
exact-size match, and a final grouped-name count that differs from the input
file count. -/
theorem c4_group_by_prefix_partition {α : Type} [DecidableEq α] (nm : α → Name)
    (files : List α) (k : Nat) (hk : 2 ≤ k) :
    (∀ gs, group_by_pref nm files k = .ok gs →
      (∀ g ∈ gs, g.length = k) ∧
      gs.flatten.Perm files ∧
      (∀ x ∈ files, gs.flatten.count x = 1) ∧
      (∀ x ∈ gs.flatten, x ∈ files)) ∧
    (∀ e, group_by_pref nm files k = .error e → group_err_ok k e) := by
  constructor
  · intro gs hgs
    rcases hloop : group_loop nm files k files [] ∅ with e | q
    · simp only [group_by_pref, hloop] at hgs
      exact Except.noConfusion hgs
    · obtain ⟨results, rs⟩ := q
      simp only [group_by_pref, hloop] at hgs
      split at hgs
      · exact Except.noConfusion hgs
      · rename_i hcard
        have hgs' := Except.ok.inj hgs
        subst hgs'
        push_neg at hcard
        obtain ⟨ha, hb, hc, hd⟩ := group_loop_invariant nm files k hk files [] ∅
          results rs (fun _ hx => hx) (fun g hg => absurd hg (List.not_mem_nil g))
          rfl (fun x hx => absurd hx (List.not_mem_nil x)) (fun _ => List.nodup_nil)
          hloop
        have hsubrs : rs ⊆ (files.map nm).toFinset := by
          intro a hars
          rw [← hb, List.mem_toFinset, List.mem_map] at hars
          obtain ⟨y, hy, rfl⟩ := hars
          rw [List.mem_toFinset, List.mem_map]
          exact ⟨y, hc y hy, rfl⟩
        have hle1 : (files.map nm).toFinset.card ≤ files.length := by
          have h1 := List.toFinset_card_le (files.map nm)
          rw [List.length_map] at h1
          exact h1
        have hge : files.length ≤ (files.map nm).toFinset.card := by
          rw [← hcard]
          exact Finset.card_le_card hsubrs
        have hcardeq : (files.map nm).toFinset.card = (files.map nm).length := by
          rw [List.length_map]
          omega
        have hN : (files.map nm).Nodup := by
          rw [List.card_toFinset] at hcardeq
          have hdedup := (List.dedup_sublist (files.map nm)).eq_of_length hcardeq
          exact List.dedup_eq_self.1 hdedup
        have hrs_eq : rs = (files.map nm).toFinset := by
          apply Finset.eq_of_subset_of_card_le hsubrs
          rw [hcardeq, List.length_map, hcard]
        have hjoinN : results.flatten.Nodup := List.Nodup.of_map nm (hd hN)
        have hfilesN : files.Nodup := List.Nodup.of_map nm hN
        have hmemiff : ∀ x, x ∈ results.flatten ↔ x ∈ files := by
          intro x
          constructor
          · exact hc x
          · intro hxf
            have hnx : nm x ∈ rs := by
              rw [hrs_eq, List.mem_toFinset, List.mem_map]
              exact ⟨x, hxf, rfl⟩
            rw [← hb, List.mem_toFinset, List.mem_map] at hnx
            obtain ⟨y, hyj, hynm⟩ := hnx
            have hyx : y = x :=
              List.inj_on_of_nodup_map hN (hc y hyj) hxf hynm
            rw [← hyx]
            exact hyj
        have hperm : results.flatten.Perm files :=
          (List.perm_ext_iff_of_nodup hjoinN hfilesN).2 hmemiff
        refine ⟨ha, hperm, ?_, fun x hx => (hmemiff x).1 hx⟩
        intro x hxf
        exact List.count_eq_one_of_mem hjoinN ((hmemiff x).2 hxf)
  · intro e he
    rcases hloop : group_loop nm files k files [] ∅ with e' | q
    · simp only [group_by_pref, hloop] at he
      rw [← Except.error.inj he]
      have hfek := group_loop_error_spec nm files k files [] ∅ e' hloop
      cases e' with
      | tooMany f m => exact hfek
      | noAdequate f => trivial
      | shortfall a b => exact hfek.elim
    · obtain ⟨results, rs⟩ := q
      simp only [group_by_pref, hloop] at he
      split at he
      · rename_i hcard
        rw [← Except.error.inj he]
        exact hcard
      · exact Except.noConfusion he

/-- Witness for C4: four files grouped in pairs by their one-character
prefixes. -/
theorem c4_group_by_prefix_partition_witness :
    2 ≤ 2 ∧
    ((∀ g ∈ ([["x1".data, "x2".data], ["y1".data, "y2".data]] : List (List Name)),
        g.length = 2) ∧
      ([["x1".data, "x2".data], ["y1".data, "y2".data]] :
        List (List Name)).flatten.Perm
        ["x1".data, "x2".data, "y1".data, "y2".data] ∧
      (∀ x ∈ (["x1".data, "x2".data, "y1".data, "y2".data] : List Name),
        @List.count Name instBEqOfDecidableEq x
          ([["x1".data, "x2".data], ["y1".data, "y2".data]] :
            List (List Name)).flatten = 1) ∧
      (∀ x ∈ ([["x1".data, "x2".data], ["y1".data, "y2".data]] :
          List (List Name)).flatten,
        x ∈ (["x1".data, "x2".data, "y1".data, "y2".data] : List Name))) :=
  ⟨by decide,
    (c4_group_by_prefix_partition id
      ["x1".data, "x2".data, "y1".data, "y2".data] 2 (by decide)).1
      [["x1".data, "x2".data], ["y1".data, "y2".data]] (by decide)⟩

end SplitFolder
